import Mathlib

/-!
Verification of the zed25519 library (package `zed`): Ed25519 signing and
verification, a VRF on the Edwards form of the curve, and blinded
hierarchical key derivation.

The protocol layer (`keys.go`, `sign.go`, `vrf.go`, `util.go`) is embedded
directly from the source.  The ref10 field/group/scalar arithmetic layer
(`ExtendedGroupElement`, `GeScalarMultBase`, `ScReduce`, `ScMulAdd`,
`ScMinimal`, compression/decompression) is part of the repository but its
source file is not available here; it is modelled from the specification's
contracts (§4.1): the Ed25519 group is cyclic of order 8·ℓ, so points are
modelled as `ZMod (8 * ell)` with the base point a fixed generator of the
index-8 subgroup, and the canonical 32-byte point encoding is modelled as an
injective little-endian encoding with a decompression that fails on
out-of-range encodings.  SHA-512 and SHA3-512 come from external libraries
(`crypto/sha512`, `golang.org/x/crypto/sha3`); every protocol definition is
parameterised by the hash function, and theorems quantify over it.

Bytes are modelled as `Nat` (with explicit `< 256` hypotheses where byte
range matters), byte strings as `List Nat`.
-/

/-- The Ed25519 prime group order ℓ = 2^252 + 27742317777372353535851937790883648493. -/
def ell : Nat := 2 ^ 252 + 27742317777372353535851937790883648493

/-- Order of the full Ed25519 curve group: cofactor 8 times ℓ. -/
def Ecard : Nat := 8 * ell

instance : NeZero Ecard := ⟨by decide⟩

/-- Modelled from the spec: the Ed25519 curve group (cyclic of order `8·ℓ`),
standing in for the repository's missing `ExtendedGroupElement` arithmetic layer. -/
abbrev Point : Type := ZMod Ecard

/-- Little-endian interpretation of a byte string as a natural number. -/
def toNatLE : List Nat → Nat
  | [] => 0
  | b :: rest => b + 256 * toNatLE rest

/-- Little-endian encoding of a natural number into `len` bytes. -/
def toBytesLE : Nat → Nat → List Nat
  | _, 0 => []
  | n, len + 1 => n % 256 :: toBytesLE (n / 256) len

/-- Modelled from the spec: `CompressPoint`, the canonical injective 32-byte
encoding of a curve point (the real code encodes y with the sign of x; the
model encodes the group element's index, which is likewise canonical and
injective). -/
def compress (p : Point) : List Nat := toBytesLE p.val 32

/-- Modelled from the spec: `DecompressPoint`; fails on encodings that denote
no curve point, succeeds and inverts `compress` on canonical encodings. -/
def decompress (b : List Nat) : Option Point :=
  if toNatLE b < Ecard then some ((toNatLE b : Nat) : Point) else none

/-- Modelled from the spec: `PointIdentity`, the neutral element (0,1,1,0). -/
def pointIdentity : Point := 0

/-- Modelled from the spec: `PointEqual`, byte equality of the compressions. -/
def pointEqual (p q : Point) : Bool := decide (compress p = compress q)

/-- Modelled from the spec: `PointAdd`. -/
def pointAdd (p q : Point) : Point := p + q

/-- Modelled from the spec: `PointSub`. -/
def pointSub (p q : Point) : Point := p - q

/-- Modelled from the spec: `PointClearCofactor`, multiplication by 8. -/
def pointClearCofactor (p : Point) : Point := 8 * p

/-- Modelled from the spec: `GeScalarMultBase` / `ScalarMultBase`, `s·B` with
`B` the base point (a generator of the order-ℓ subgroup; in the cyclic model
`B = 8`). -/
def scalarMultBase (s : List Nat) : Point := ((toNatLE s : Nat) : Point) * 8

/-- Modelled from the spec: `ScalarMultPointVartime`, `a·P`. -/
def scalarMultPoint (a : List Nat) (p : Point) : Point :=
  ((toNatLE a : Nat) : Point) * p

/-- Modelled from the spec: `ScReduce` / `ScalarReduce512`, reduction of a
64-byte value mod ℓ, emitted as 32 little-endian bytes. -/
def scReduce (b : List Nat) : List Nat := toBytesLE (toNatLE b % ell) 32

/-- Modelled from the spec: `ScMulAdd`, the fused scalar operation `(a·b + c) mod ℓ`. -/
def scMulAdd (a b c : List Nat) : List Nat :=
  toBytesLE ((toNatLE a * toNatLE b + toNatLE c) % ell) 32

/-- A 32-byte all-zero buffer. -/
def zero32 : List Nat := List.replicate 32 0

/-- `ScalarMultScalar` from util.go: `(a·b) mod ℓ` realised as `ScMulAdd(a, b, 0)`. -/
def scalarMultScalar (a b : List Nat) : List Nat := scMulAdd a b zero32

/-- Modelled from the spec: `ScMinimal` / `ValidScalar`, true iff `s < ℓ` as a
little-endian integer. -/
def scMinimal (s : List Nat) : Bool := decide (toNatLE s < ell)

/-- Result of a Go `hash.Sum` into a zeroed `Buffer512`: exactly 64 bytes,
truncating or zero-padding the modelled hash output. -/
def sum64 (H : List Nat → List Nat) (m : List Nat) : List Nat :=
  List.takeD 64 (H m) 0

/-- The Ed25519 clamp from the source: `s[0] &= 248; s[31] &= 63; s[31] |= 64`. -/
def clamp (s : List Nat) : List Nat :=
  let t := s.set 0 (s.getD 0 0 &&& 248)
  t.set 31 ((t.getD 31 0 &&& 63) ||| 64)

/-- `Secret` from keys.go: a private scalar and a 32-byte prefix. -/
structure Secret where
  scalar : List Nat
  pfx : List Nat
deriving DecidableEq

/-- `Public` from keys.go: an Ed25519 curve point. -/
structure Public where
  point : Point
deriving DecidableEq

/-- `Public.Key` from keys.go: the canonical compressed 32-byte public key. -/
def Public.Key (pk : Public) : List Nat := compress pk.point

/-- `Secret.Key` from keys.go: the 64-byte serialization `scalar ‖ prefix`. -/
def Secret.Key (sk : Secret) : List Nat := sk.scalar ++ sk.pfx

/-- `Secret.Public` from keys.go: the corresponding public key, `A = a·B`. -/
def Secret.Public (sk : Secret) : Public := ⟨scalarMultBase sk.scalar⟩

/-- `PublicFromKey` from keys.go; `none` models the Go panic on a bad length
or an undecompressable encoding. -/
def PublicFromKey (key : List Nat) : Option Public :=
  if key.length = 32 then (decompress key).map (fun p => ⟨p⟩) else none

/-- `SecretFromKey` from keys.go: splits a 64-byte encoding into scalar and
prefix with no further validation; `none` models the panic on a bad length. -/
def SecretFromKey (key : List Nat) : Option Secret :=
  if key.length = 64 then some ⟨key.take 32, key.drop 32⟩ else none

/-- `SecretFromSeed` from keys.go: SHA-512 expansion of the first 32 seed
bytes, clamped scalar from the first half, prefix from the second half;
`none` models the panic on a bad length. -/
def SecretFromSeed (H : List Nat → List Nat) (seed : List Nat) : Option Secret :=
  if seed.length = 32 ∨ seed.length = 64 then
    some ⟨clamp ((sum64 H (seed.take 32)).take 32), (sum64 H (seed.take 32)).drop 32⟩
  else none

/-- `Secret.Sign` from sign.go: deterministic Ed25519 signing,
`sig = Rs ‖ s` with `r = SHA-512(p‖m) mod ℓ`, `R = r·B`,
`h = SHA-512(Rs‖As‖m) mod ℓ`, `s = (h·a + r) mod ℓ`. -/
def Secret.Sign (H : List Nat → List Nat) (sk : Secret) (msg : List Nat) : List Nat :=
  let a := sk.scalar
  let p := sk.pfx
  let As := Public.Key (Secret.Public sk)
  let r := scReduce (sum64 H (p ++ msg))
  let Rs := compress (scalarMultBase r)
  let h := scReduce (sum64 H (Rs ++ As ++ msg))
  let s := scMulAdd h a r
  Rs ++ s

/-- `Public.Verify` from sign.go: length and top-bit pre-filter, decompress R,
`s < ℓ` check, then `s·B == R + h·A` by compressed-point equality. -/
def Public.Verify (H : List Nat → List Nat) (pk : Public) (msg sig : List Nat) : Bool :=
  if sig.length ≠ 64 ∨ sig.getD 63 0 &&& 224 ≠ 0 then false
  else
    (decompress (sig.take 32)).elim false (fun R =>
      let s := sig.drop 32
      if scMinimal s then
        let h := scReduce (sum64 H (sig.take 32 ++ Public.Key pk ++ msg))
        pointEqual (scalarMultBase s) (pointAdd R (scalarMultPoint h pk.point))
      else false)

/-- ASCII bytes of the public-mode KDF domain-separation constant. -/
def zedPublicConst : List Nat := "zed25519_derivation_index_public".data.map Char.toNat

/-- ASCII bytes of the secret-mode KDF domain-separation constant. -/
def zedSecretConst : List Nat := "zed25519_derivation_index_secret".data.map Char.toNat

/-- `derivationBlind` from sign.go: the two-pass SHA3-512 KDF with
public/secret modes selected by the presence of `skey`. -/
def derivationBlind (S : List Nat → List Nat) (pubkey scalar index : List Nat)
    (skey : Option (List Nat)) : List Nat :=
  let key := match skey with
    | none => sum64 S (zedPublicConst ++ pubkey)
    | some k => sum64 S (zedSecretConst ++ scalar ++ k)
  scReduce (sum64 S (key ++ index))

/-- `Public.Derive` from sign.go: clamped public-mode blind times the point. -/
def Public.Derive (S : List Nat → List Nat) (pk : Public) (index : List Nat) : Public :=
  ⟨scalarMultPoint (clamp (derivationBlind S (Public.Key pk) [] index none)) pk.point⟩

/-- `Secret.Derive` from sign.go: blind from the public or secret mode KDF,
clamped; child scalar `blind·a mod ℓ`; child prefix
`SHA-512(prefix ‖ prefix)[0..32]`. -/
def Secret.Derive (H S : List Nat → List Nat) (sk : Secret) (index : List Nat)
    (skey : Option (List Nat)) : Secret :=
  let blind := match skey with
    | none => derivationBlind S (Public.Key (Secret.Public sk)) [] index none
    | some k => derivationBlind S [] sk.scalar index (some k)
  ⟨scalarMultScalar (clamp blind) sk.scalar, (sum64 H (sk.pfx ++ sk.pfx)).take 32⟩

/-- Guess-and-check loop of `HashToPointVartime` from util.go: try counter
values in order, decompressing each half of the hash output; `none` models
the (probability ≈ 2^-512) case where all 256 counter values fail and the Go
loop never terminates. -/
def hashToPointAux (H : List Nat → List Nat) (ib : List Nat) : Nat → Nat → Option Point
  | 0, _ => none
  | fuel + 1, c =>
    let ob := sum64 H (ib.set 0 c)
    match decompress (ob.take 32) with
    | some p => some p
    | none =>
      match decompress (ob.drop 32) with
      | some p => some p
      | none => hashToPointAux H ib fuel (c + 1)

/-- `HashToPointVartime` from util.go: hash, zero the counter byte, search,
then clear the cofactor of the found point. -/
def HashToPointVartime (H : List Nat → List Nat) (x : List Nat) : Option Point :=
  (hashToPointAux H (sum64 H x) 256 0).map pointClearCofactor

/-- `Secret.VrfEval` from vrf.go; `none` models a non-terminating
hash-to-point search. -/
def VrfEval (H : List Nat → List Nat) (sk : Secret) (x : List Nat) :
    Option (List Nat × List Nat) :=
  let a := sk.scalar
  let p := sk.pfx
  let As := Public.Key (Secret.Public sk)
  (HashToPointVartime H (As ++ x)).elim none (fun Bv =>
    let V := scalarMultPoint a Bv
    let Vs := compress V
    let r := scReduce (sum64 H (p ++ Vs))
    let Rs := compress (scalarMultBase r)
    let Rvs := compress (scalarMultPoint r Bv)
    let h := scReduce (sum64 H (As ++ Vs ++ Rs ++ Rvs ++ x))
    let s := scMulAdd h a r
    let y := (sum64 H (compress (pointClearCofactor V))).take 32
    some (y, Vs ++ h ++ s))

/-- `Public.VrfVerify` from vrf.go.  The source never checks the proof
length: `proof[:32]` and `proof[32:64]` panic when the proof is too short
(modelled by `none`), and `copy(s[:], proof[64:])` zero-pads short tails and
ignores bytes beyond 96. -/
def VrfVerify (H : List Nat → List Nat) (pk : Public) (x proofArg : List Nat) :
    Option (List Nat × Bool) :=
  if proofArg.length < 32 then none
  else
    let As := Public.Key pk
    let Vs := proofArg.take 32
    (decompress Vs).elim (some (zero32, false)) (fun V =>
      if proofArg.length < 64 then none
      else
        let h := (proofArg.drop 32).take 32
        if scMinimal h then
          let s := List.takeD 32 (proofArg.drop 64) 0
          if scMinimal s then
            (HashToPointVartime H (As ++ x)).elim none (fun Bv =>
              if pointEqual (pointClearCofactor pk.point) pointIdentity then
                some (zero32, false)
              else if pointEqual (pointClearCofactor V) pointIdentity then
                some (zero32, false)
              else if pointEqual (pointClearCofactor Bv) pointIdentity then
                some (zero32, false)
              else
                let Rs := compress (pointSub (scalarMultBase s) (scalarMultPoint h pk.point))
                let Rvs := compress (pointSub (scalarMultPoint s Bv) (scalarMultPoint h V))
                let hCheck := scReduce (sum64 H (As ++ Vs ++ Rs ++ Rvs ++ x))
                if h = hCheck then
                  some ((sum64 H (compress (pointClearCofactor V))).take 32, true)
                else some (zero32, false))
          else some (zero32, false)
        else some (zero32, false))

/-- The Ed25519 clamp invariant on a 32-byte little-endian scalar buffer: low
three bits of byte 0 zero, bit 6 of byte 31 (scalar bit 254) set, bit 7 of
byte 31 (scalar bit 255) zero. -/
def ClampedBytes (s : List Nat) : Prop :=
  s.getD 0 0 &&& 7 = 0 ∧ s.getD 31 0 &&& 64 = 64 ∧ s.getD 31 0 &&& 128 = 0

instance (s : List Nat) : Decidable (ClampedBytes s) := by
  unfold ClampedBytes; infer_instance

/-- Spec §4.10, written from the spec's words: `KDF_public(pubkey, index)`:
`key = SHA3-512("...public" ‖ pubkey)`, `kmac = SHA3-512(key ‖ index)`,
`blind = ScReduce(kmac)`. -/
def KDFpublic (S : List Nat → List Nat) (pubkey index : List Nat) : List Nat :=
  scReduce (sum64 S (sum64 S (zedPublicConst ++ pubkey) ++ index))

/-- Spec §4.10, written from the spec's words: `KDF_secret(scalar, index, skey)`:
`key = SHA3-512("...secret" ‖ scalar ‖ skey)`, `kmac = SHA3-512(key ‖ index)`,
`blind = ScReduce(kmac)`. -/
def KDFsecret (S : List Nat → List Nat) (scalar index skey : List Nat) : List Nat :=
  scReduce (sum64 S (sum64 S (zedSecretConst ++ scalar ++ skey) ++ index))

/-- A concrete stand-in hash whose output is always empty (zero-padded to 64
zero bytes by `sum64`), used to instantiate witnesses. -/
def hashZero : List Nat → List Nat := fun _ => []

/-- A concrete stand-in hash whose output is always the single byte 1, used
to instantiate witnesses where the hash-to-point search must land on a point
outside the small-order subgroup. -/
def hashOne : List Nat → List Nat := fun _ => [1]

/-- The Secret obtained from the all-zero seed under `hashZero`. -/
def skZero : Secret := ⟨clamp zero32, zero32⟩

/-- The Secret obtained from the all-zero seed under `hashOne`. -/
def skOne : Secret := (SecretFromSeed hashOne zero32).getD ⟨[], []⟩

/-- The VRF output and proof of `skOne` on the empty input under `hashOne`. -/
def vrfResW : List Nat × List Nat := (VrfEval hashOne skOne []).getD ([], [])

/-- The Public wrapping the identity point, for concrete witnesses. -/
def pubZero : Public := ⟨0⟩

/-! ## Basic facts about the byte encodings -/

theorem toNatLE_nil : toNatLE [] = 0 := rfl

theorem toNatLE_cons (b : Nat) (l : List Nat) : toNatLE (b :: l) = b + 256 * toNatLE l := rfl

theorem toNatLE_append (l1 l2 : List Nat) :
    toNatLE (l1 ++ l2) = toNatLE l1 + 256 ^ l1.length * toNatLE l2 := by
  induction l1 with
  | nil => simp [toNatLE]
  | cons b t ih => simp [toNatLE, ih, Nat.pow_succ]; ring

theorem toNatLE_lt (l : List Nat) (h : ∀ b ∈ l, b < 256) : toNatLE l < 256 ^ l.length := by
  induction l with
  | nil => simp [toNatLE]
  | cons b t ih =>
    have hb : b < 256 := h b (by simp)
    have ht : toNatLE t < 256 ^ t.length := ih (fun x hx => h x (by simp [hx]))
    simp only [toNatLE, List.length_cons, Nat.pow_succ]
    calc b + 256 * toNatLE t < 256 + 256 * toNatLE t := by omega
    _ ≤ 256 * 256 ^ t.length := by omega
    _ = 256 ^ t.length * 256 := by ring

theorem toBytesLE_length (n len : Nat) : (toBytesLE n len).length = len := by
  induction len generalizing n with
  | zero => rfl
  | succ k ih => simp [toBytesLE, ih]

theorem toNatLE_toBytesLE (n len : Nat) (h : n < 256 ^ len) :
    toNatLE (toBytesLE n len) = n := by
  induction len generalizing n with
  | zero => simp at h; simp [toBytesLE, toNatLE, h]
  | succ k ih =>
    have hd : n / 256 < 256 ^ k := by
      rw [Nat.div_lt_iff_lt_mul (by norm_num)]
      calc n < 256 ^ (k + 1) := h
      _ = 256 ^ k * 256 := by ring
    simp [toBytesLE, toNatLE, ih _ hd, Nat.mod_add_div']
    omega

theorem toBytesLE_mem (n len b : Nat) (h : b ∈ toBytesLE n len) : b < 256 := by
  induction len generalizing n with
  | zero => simp [toBytesLE] at h
  | succ k ih =>
    simp only [toBytesLE, List.mem_cons] at h
    rcases h with h | h
    · omega
    · exact ih _ h

theorem toBytesLE_getD (n len i : Nat) (h : i < len) :
    (toBytesLE n len).getD i 0 = n / 256 ^ i % 256 := by
  induction len generalizing n i with
  | zero => omega
  | succ k ih =>
    cases i with
    | zero => simp [toBytesLE, List.getD]
    | succ j =>
      have := ih (n / 256) j (by omega)
      simp only [toBytesLE, List.getD_cons_succ, this, Nat.pow_succ]
      rw [Nat.div_div_eq_div_mul]
      ring_nf

theorem mem_takeD (n : Nat) (l : List Nat) (a b : Nat) (h : b ∈ List.takeD n l a) :
    b ∈ l ∨ b = a := by
  induction n generalizing l with
  | zero => simp [List.takeD] at h
  | succ k ih =>
    rw [List.takeD_succ, List.mem_cons] at h
    rcases h with h | h
    · cases l with
      | nil => simp at h; right; exact h
      | cons x t => simp at h; left; simp [h]
    · rcases ih l.tail h with h2 | h2
      · left; exact List.mem_of_mem_tail h2
      · right; exact h2

theorem takeD_self (n : Nat) (l : List Nat) (a : Nat) (h : l.length = n) :
    List.takeD n l a = l := by
  rw [List.takeD_eq_take _ (le_of_eq h.symm), ← h, List.take_length]

theorem sum64_length (H : List Nat → List Nat) (m : List Nat) : (sum64 H m).length = 64 :=
  List.takeD_length _ _ _

theorem sum64_mem (H : List Nat → List Nat) (m : List Nat)
    (hH : ∀ b ∈ H m, b < 256) (b : Nat) (hb : b ∈ sum64 H m) : b < 256 := by
  rcases mem_takeD _ _ _ _ hb with h | h
  · exact hH b h
  · omega

/-! ## Facts about the modelled point encoding layer -/

theorem Ecard_lt_pow : Ecard < 256 ^ 32 := by decide

theorem compress_length (p : Point) : (compress p).length = 32 := toBytesLE_length _ _

theorem toNatLE_compress (p : Point) : toNatLE (compress p) = p.val :=
  toNatLE_toBytesLE _ _ (lt_trans (ZMod.val_lt p) Ecard_lt_pow)

theorem decompress_compress (p : Point) : decompress (compress p) = some p := by
  unfold decompress
  rw [toNatLE_compress, if_pos (ZMod.val_lt p), ZMod.natCast_zmod_val]

theorem compress_injective (p q : Point) (h : compress p = compress q) : p = q := by
  have := congrArg toNatLE h
  rw [toNatLE_compress, toNatLE_compress] at this
  exact ZMod.val_injective _ this

theorem pointEqual_true_iff (p q : Point) : pointEqual p q = true ↔ p = q := by
  unfold pointEqual
  rw [decide_eq_true_iff]
  exact ⟨compress_injective p q, fun h => by rw [h]⟩

theorem pointEqual_false_of_ne (p q : Point) (h : p ≠ q) : pointEqual p q = false := by
  rw [← Bool.not_eq_true, pointEqual_true_iff]; exact h

/-! ## Facts about the modelled scalar layer -/

theorem ell_lt_pow : ell < 256 ^ 32 := by decide

theorem toNatLE_scReduce (b : List Nat) : toNatLE (scReduce b) = toNatLE b % ell :=
  toNatLE_toBytesLE _ _ (lt_trans (Nat.mod_lt _ (by decide)) ell_lt_pow)

theorem toNatLE_scMulAdd (a b c : List Nat) :
    toNatLE (scMulAdd a b c) = (toNatLE a * toNatLE b + toNatLE c) % ell :=
  toNatLE_toBytesLE _ _ (lt_trans (Nat.mod_lt _ (by decide)) ell_lt_pow)

theorem scReduce_length (b : List Nat) : (scReduce b).length = 32 := toBytesLE_length _ _

theorem scMulAdd_length (a b c : List Nat) : (scMulAdd a b c).length = 32 :=
  toBytesLE_length _ _

theorem scMinimal_scReduce (b : List Nat) : scMinimal (scReduce b) = true := by
  unfold scMinimal
  rw [toNatLE_scReduce, decide_eq_true_iff]
  exact Nat.mod_lt _ (by decide)

theorem scMinimal_scMulAdd (a b c : List Nat) : scMinimal (scMulAdd a b c) = true := by
  unfold scMinimal
  rw [toNatLE_scMulAdd, decide_eq_true_iff]
  exact Nat.mod_lt _ (by decide)

theorem toNatLE_zero32 : toNatLE zero32 = 0 := by decide

/-! ## Bit-manipulation facts for the clamp and the verifier pre-filter -/

theorem and224_of_lt (x : Nat) (h : x < 32) : x &&& 224 = 0 := by
  interval_cases x <;> decide

theorem or64_facts (z : Nat) (hz : z ≤ 63) :
    (z ||| 64) &&& 64 = 64 ∧ (z ||| 64) &&& 128 = 0 ∧ 64 ≤ (z ||| 64) ∧ (z ||| 64) < 128 := by
  interval_cases z <;> decide

theorem and248_and7 (x : Nat) : (x &&& 248) &&& 7 = 0 := by
  rw [Nat.and_assoc]
  have h : 248 &&& 7 = 0 := by decide
  rw [h, Nat.and_zero]

theorem and248_mod8 (x : Nat) : (x &&& 248) % 8 = 0 := by
  have h := Nat.and_pow_two_sub_one_eq_mod (x &&& 248) 3
  norm_num at h
  rw [← h]
  exact and248_and7 x

/-! ## Facts about the clamp -/

theorem clamp_cons (b : Nat) (rest : List Nat) :
    clamp (b :: rest) = (b &&& 248) :: rest.set 30 ((rest.getD 30 0 &&& 63) ||| 64) := by
  simp [clamp]

theorem clamp_length (s : List Nat) : (clamp s).length = s.length := by
  simp [clamp]

theorem getD_set_self (l : List Nat) (n v : Nat) (h : n < l.length) :
    (l.set n v).getD n 0 = v := by
  simp [List.getD, List.getElem?_set_self', h]

theorem clamped_clamp (s : List Nat) (h : s.length = 32) : ClampedBytes (clamp s) := by
  cases s with
  | nil => simp at h
  | cons b rest =>
    have hr : rest.length = 31 := by simpa using h
    rw [clamp_cons]
    have hz : rest.getD 30 0 &&& 63 ≤ 63 := Nat.and_le_right
    have hv := or64_facts _ hz
    have h31 : ((b &&& 248) :: rest.set 30 ((rest.getD 30 0 &&& 63) ||| 64)).getD 31 0
        = (rest.getD 30 0 &&& 63) ||| 64 := by
      rw [List.getD_cons_succ]
      exact getD_set_self _ _ _ (by omega)
    refine ⟨?_, ?_, ?_⟩
    · rw [List.getD_cons_zero]; exact and248_and7 b
    · rw [h31]; exact hv.1
    · rw [h31]; exact hv.2.1

theorem clampedArith (x T v : Nat) (hx : x ≤ 248) (hx8 : x % 8 = 0) (hT : T < 256 ^ 30)
    (hv1 : 64 ≤ v) (hv2 : v < 128) :
    2 ^ 254 ≤ x + 256 * (T + 256 ^ 30 * v) ∧ x + 256 * (T + 256 ^ 30 * v) < 2 ^ 255 ∧
      (x + 256 * (T + 256 ^ 30 * v)) % 8 = 0 := by
  norm_num at hT ⊢
  omega

theorem toNatLE_clamp (s : List Nat) (h : s.length = 32) (hb : ∀ x ∈ s, x < 256) :
    2 ^ 254 ≤ toNatLE (clamp s) ∧ toNatLE (clamp s) < 2 ^ 255 ∧
      toNatLE (clamp s) % 8 = 0 := by
  cases s with
  | nil => simp at h
  | cons b rest =>
    have hr : rest.length = 31 := by simpa using h
    rw [clamp_cons, toNatLE_cons]
    have hset : rest.set 30 ((rest.getD 30 0 &&& 63) ||| 64)
        = rest.take 30 ++ [(rest.getD 30 0 &&& 63) ||| 64] := by
      rw [List.set_eq_take_append_cons_drop, if_pos (by omega)]
      rw [List.drop_eq_nil_of_le (by omega)]
    rw [hset, toNatLE_append]
    have htklen : (rest.take 30).length = 30 := by simp [hr]
    rw [htklen]
    have hT : toNatLE (rest.take 30) < 256 ^ 30 := by
      have := toNatLE_lt (rest.take 30) (fun x hx =>
        hb x (List.mem_cons_of_mem _ (List.mem_of_mem_take hx)))
      rwa [htklen] at this
    have hz : rest.getD 30 0 &&& 63 ≤ 63 := Nat.and_le_right
    have hv := or64_facts _ hz
    have harith := clampedArith (b &&& 248) (toNatLE (rest.take 30))
      ((rest.getD 30 0 &&& 63) ||| 64) Nat.and_le_right (and248_mod8 b) hT hv.2.2.1 hv.2.2.2
    have hone : toNatLE [(rest.getD 30 0 &&& 63) ||| 64]
        = (rest.getD 30 0 &&& 63) ||| 64 := by
      simp [toNatLE]
    rw [hone]
    exact harith

/-! ## ℓ does not divide a clamped scalar -/

theorem not_ell_dvd (a : Nat) (h1 : 2 ^ 254 ≤ a) (h2 : a < 2 ^ 255) (h3 : a % 8 = 0) :
    ¬ ell ∣ a := by
  rintro ⟨k, rfl⟩
  have hk8 : k < 8 := by
    by_contra hcon
    push_neg at hcon
    have hm : ell * 8 ≤ ell * k := Nat.mul_le_mul_left _ hcon
    have h58 : (2 : Nat) ^ 255 < ell * 8 := by decide
    omega
  have hk4 : 4 ≤ k := by
    by_contra hcon
    push_neg at hcon
    have hm : ell * k ≤ ell * 3 := Nat.mul_le_mul_left _ (by omega)
    have h3e : ell * 3 < 2 ^ 254 := by decide
    omega
  interval_cases k <;> revert h3 <;> decide

/-! ## Algebra in the modelled curve group -/

theorem ell_mul_eight : ((ell : Nat) : Point) * 8 = 0 := by
  have h : ((8 * ell : Nat) : Point) = 0 := ZMod.natCast_self Ecard
  push_cast at h
  linear_combination h

theorem mod_ell_mul (x : Nat) (p : Point) :
    ((x % ell : Nat) : Point) * (8 * p) = ((x : Nat) : Point) * (8 * p) := by
  conv_rhs => rw [← Nat.mod_add_div x ell]
  push_cast
  linear_combination (-(((x / ell : Nat) : Point) * p)) * ell_mul_eight

theorem mod_ell_mul_base (x : Nat) :
    ((x % ell : Nat) : Point) * 8 = ((x : Nat) : Point) * 8 := by
  have h := mod_ell_mul x 1
  simpa using h

theorem natCast_point_ne_zero (x : Nat) (h : ¬ Ecard ∣ x) : ((x : Nat) : Point) ≠ 0 := by
  rw [Ne, ZMod.natCast_zmod_eq_zero_iff_dvd]
  exact h

theorem coprime_ell_eight : Nat.Coprime ell 8 := by decide

theorem eight_base_ne_zero (x : Nat) (h : ¬ ell ∣ x) :
    (8 : Point) * (((x : Nat) : Point) * 8) ≠ 0 := by
  have h64 : (8 : Point) * (((x : Nat) : Point) * 8) = ((64 * x : Nat) : Point) := by
    push_cast
    ring
  rw [h64]
  apply natCast_point_ne_zero
  rintro ⟨c, hc⟩
  apply h
  have h1 : 8 * (8 * x) = 8 * (ell * c) := by
    rw [show (8 : Nat) * (8 * x) = 64 * x by ring, hc, show Ecard = 8 * ell from rfl]
    ring
  have h8 : 8 * x = ell * c := Nat.eq_of_mul_eq_mul_left (by norm_num) h1
  exact coprime_ell_eight.dvd_of_dvd_mul_left ⟨c, h8⟩

/-! ## Small list helpers -/

theorem getD_append_right' (l1 l2 : List Nat) (n : Nat) (h : l1.length ≤ n) :
    (l1 ++ l2).getD n 0 = l2.getD (n - l1.length) 0 := by
  simp [List.getD, List.getElem?_append_right h]

theorem take32_append (l1 l2 : List Nat) (h : l1.length = 32) : (l1 ++ l2).take 32 = l1 := by
  rw [← h, List.take_left]

theorem drop32_append (l1 l2 : List Nat) (h : l1.length = 32) : (l1 ++ l2).drop 32 = l2 := by
  rw [← h, List.drop_left]

theorem sig_byte63 (v : Nat) (hv : v < ell) : (toBytesLE v 32).getD 31 0 &&& 224 = 0 := by
  rw [toBytesLE_getD _ _ _ (by omega)]
  apply and224_of_lt
  have h248 : (256 : Nat) ^ 31 = 2 ^ 248 := by norm_num
  have hlt : v < 32 * 256 ^ 31 := by
    rw [h248]
    have : ell < 32 * 2 ^ 248 := by decide
    omega
  have hdiv : v / 256 ^ 31 < 32 := Nat.div_lt_of_lt_mul (by omega)
  exact lt_of_le_of_lt (Nat.mod_le _ _) hdiv

/-! ## Reduction helpers -/

theorem elimSome {A B : Type} (a : A) (b : B) (f : A → B) : Option.elim (some a) b f = f a :=
  rfl

theorem byte31_lt (v : Nat) (hv : v < ell) : (toBytesLE v 32).getD 31 0 < 32 := by
  rw [toBytesLE_getD _ _ _ (by omega)]
  have h248 : (256 : Nat) ^ 31 = 2 ^ 248 := by norm_num
  have hlt : v < 32 * 256 ^ 31 := by
    rw [h248]
    have : ell < 32 * 2 ^ 248 := by decide
    omega
  have hdiv : v / 256 ^ 31 < 32 := Nat.div_lt_of_lt_mul (by omega)
  exact lt_of_le_of_lt (Nat.mod_le _ _) hdiv

theorem and64_of_lt (x : Nat) (h : x < 32) : x &&& 64 = 0 := by
  interval_cases x <;> decide

theorem hashToPoint_shape (H : List Nat → List Nat) (x : List Nat) (Bv : Point)
    (h : HashToPointVartime H x = some Bv) : ∃ p0 : Point, Bv = 8 * p0 := by
  unfold HashToPointVartime at h
  rcases Option.map_eq_some'.mp h with ⟨p0, _, hp⟩
  exact ⟨p0, by rw [← hp]; rfl⟩

theorem drop64_append (l1 l2 l3 : List Nat) (h1 : l1.length = 32) (h2 : l2.length = 32) :
    (l1 ++ (l2 ++ l3)).drop 64 = l3 := by
  rw [show (64 : Nat) = 32 + 32 from rfl, ← List.drop_drop, drop32_append _ _ h1,
    drop32_append _ _ h2]

/-! ## The verifier accepts honestly produced signatures -/

theorem verify_accepts_core (H : List Nat → List Nat) (pk : Public) (msg Rs sBytes : List Nat)
    (R : Point) (hRs : Rs.length = 32) (hs32 : sBytes.length = 32)
    (hsv : toNatLE sBytes < ell) (hbyte : sBytes.getD 31 0 &&& 224 = 0)
    (hR : decompress Rs = some R)
    (heq : scalarMultBase sBytes =
      R + ((toNatLE (scReduce (sum64 H (Rs ++ Public.Key pk ++ msg))) : Nat) : Point) * pk.point) :
    Public.Verify H pk msg (Rs ++ sBytes) = true := by
  unfold Public.Verify
  rw [take32_append _ _ hRs, drop32_append _ _ hRs]
  rw [if_neg]
  · rw [hR]
    show (if scMinimal sBytes = true then _ else false) = true
    rw [if_pos]
    · rw [pointEqual_true_iff]
      exact heq
    · unfold scMinimal
      rw [decide_eq_true_iff]
      exact hsv
  · push_neg
    constructor
    · rw [List.length_append, hRs, hs32]
    · rw [getD_append_right' _ _ _ (by rw [hRs]; omega), hRs]
      show sBytes.getD 31 0 &&& 224 = 0
      exact hbyte

theorem verify_sign_any (H : List Nat → List Nat) (sk : Secret) (msg : List Nat) :
    Public.Verify H (Secret.Public sk) msg (Secret.Sign H sk msg) = true := by
  have hpk : (Secret.Public sk).point = ((toNatLE sk.scalar : Nat) : Point) * 8 := rfl
  refine verify_accepts_core H (Secret.Public sk) msg
    (compress (scalarMultBase (scReduce (sum64 H (sk.pfx ++ msg)))))
    (scMulAdd
      (scReduce (sum64 H
        (compress (scalarMultBase (scReduce (sum64 H (sk.pfx ++ msg)))) ++
          Public.Key (Secret.Public sk) ++ msg)))
      sk.scalar (scReduce (sum64 H (sk.pfx ++ msg))))
    (scalarMultBase (scReduce (sum64 H (sk.pfx ++ msg))))
    (compress_length _) (scMulAdd_length _ _ _)
    (by rw [toNatLE_scMulAdd]; exact Nat.mod_lt _ (by decide))
    (and224_of_lt _ (byte31_lt _ (Nat.mod_lt _ (by decide))))
    (decompress_compress _)
    ?_
  unfold scalarMultBase
  rw [toNatLE_scMulAdd, mod_ell_mul_base, hpk]
  push_cast
  ring

/-! ## Algebraic identities used by the VRF verifier walk-through -/

theorem vrf_R_eq (hB aB rB : List Nat) :
    pointSub (scalarMultBase (scMulAdd hB aB rB))
      (scalarMultPoint hB (((toNatLE aB : Nat) : Point) * 8)) = scalarMultBase rB := by
  unfold pointSub scalarMultBase scalarMultPoint
  rw [toNatLE_scMulAdd, mod_ell_mul_base]
  push_cast
  ring

theorem vrf_Rv_eq (hB aB rB : List Nat) (p0 : Point) :
    pointSub (scalarMultPoint (scMulAdd hB aB rB) (8 * p0))
      (scalarMultPoint hB (scalarMultPoint aB (8 * p0))) = scalarMultPoint rB (8 * p0) := by
  unfold pointSub scalarMultPoint
  rw [toNatLE_scMulAdd, mod_ell_mul]
  push_cast
  ring

theorem scalarMultScalar_base (bc aB : List Nat) :
    scalarMultBase (scalarMultScalar bc aB) = scalarMultPoint bc (scalarMultBase aB) := by
  unfold scalarMultBase scalarMultPoint scalarMultScalar scMulAdd
  rw [toNatLE_toBytesLE _ _ (lt_trans (Nat.mod_lt _ (by decide)) ell_lt_pow)]
  rw [toNatLE_zero32, Nat.add_zero, mod_ell_mul_base]
  push_cast
  ring

/-! ## Claim theorems -/

/-- C1: for every 32-byte seed and every message, verifying a signature
produced over the same keypair succeeds: `Public.Verify msg sig` returns true
when `sig = Secret.Sign msg` for the Secret built by `SecretFromSeed` and the
Public obtained from it via `Secret.Public`.  Quantified over the modelled
SHA-512 function. -/
theorem sign_verify_roundtrip (H : List Nat → List Nat) (seed msg : List Nat) (sk : Secret)
    (hseed : seed.length = 32) (hsk : SecretFromSeed H seed = some sk) :
    Public.Verify H (Secret.Public sk) msg (Secret.Sign H sk msg) = true :=
  verify_sign_any H sk msg

set_option maxRecDepth 40000 in
theorem sign_verify_roundtrip_witness :
    zero32.length = 32 ∧ SecretFromSeed hashZero zero32 = some skZero ∧
      Public.Verify hashZero (Secret.Public skZero) [] (Secret.Sign hashZero skZero []) = true :=
  ⟨by decide, by decide, sign_verify_roundtrip hashZero zero32 [] skZero (by decide) (by decide)⟩

set_option maxHeartbeats 1000000 in
/-- C2: for every 32-byte seed and input x, if VrfEval on the Secret built
from the seed returns (y, proof), then VrfVerify on the corresponding Public
returns (y, true).  Quantified over the modelled SHA-512 function (assumed to
emit bytes); the hypotheses assume the hash-to-point search terminates and
that neither the hashed point nor V is annihilated by the cofactor — with the
real SHA-512 these fail only with probability around 2^-250, and when they
fail VrfEval itself diverges or VrfVerify's documented small-order rejection
fires. -/
theorem vrf_eval_verify_roundtrip (H : List Nat → List Nat)
    (hH : ∀ m, ∀ b ∈ H m, b < 256)
    (seed x : List Nat) (hseed : seed.length = 32)
    (sk : Secret) (hsk : SecretFromSeed H seed = some sk)
    (Bv : Point)
    (hBv : HashToPointVartime H (Public.Key (Secret.Public sk) ++ x) = some Bv)
    (hcBv : pointClearCofactor Bv ≠ pointIdentity)
    (hcV : pointClearCofactor (scalarMultPoint sk.scalar Bv) ≠ pointIdentity)
    (y pr : List Nat) (heval : VrfEval H sk x = some (y, pr)) :
    VrfVerify H (Secret.Public sk) x pr = some (y, true) := by
  have hskval : sk.scalar = clamp ((sum64 H (seed.take 32)).take 32) := by
    unfold SecretFromSeed at hsk
    rw [if_pos (Or.inl hseed), Option.some.injEq] at hsk
    rw [← hsk]
  have hlen32 : ((sum64 H (seed.take 32)).take 32).length = 32 := by
    rw [List.length_take, sum64_length]
    omega
  have hbytes : ∀ b ∈ (sum64 H (seed.take 32)).take 32, b < 256 := fun b hb =>
    sum64_mem H _ (hH _) b (List.mem_of_mem_take hb)
  have hcl := toNatLE_clamp _ hlen32 hbytes
  have hnd : ¬ ell ∣ toNatLE sk.scalar := by
    rw [hskval]
    exact not_ell_dvd _ hcl.1 hcl.2.1 hcl.2.2
  have hpkpt : (Secret.Public sk).point = ((toNatLE sk.scalar : Nat) : Point) * 8 := rfl
  have hAne : pointClearCofactor ((Secret.Public sk).point) ≠ pointIdentity := by
    rw [hpkpt]
    exact eight_base_ne_zero _ hnd
  obtain ⟨p0, rfl⟩ := hashToPoint_shape _ _ _ hBv
  simp only [VrfEval] at heval
  rw [hBv] at heval
  rw [elimSome] at heval
  rw [Option.some.injEq, Prod.mk.injEq] at heval
  obtain ⟨hy, hpr⟩ := heval
  subst hy
  subst hpr
  rw [List.append_assoc]
  simp only [VrfVerify]
  have hlen96 : ((compress (scalarMultPoint sk.scalar (8 * p0))) ++
      (scReduce (sum64 H (Public.Key (Secret.Public sk) ++
          compress (scalarMultPoint sk.scalar (8 * p0)) ++
          compress (scalarMultBase (scReduce (sum64 H
            (sk.pfx ++ compress (scalarMultPoint sk.scalar (8 * p0)))))) ++
          compress (scalarMultPoint (scReduce (sum64 H
            (sk.pfx ++ compress (scalarMultPoint sk.scalar (8 * p0))))) (8 * p0)) ++ x)) ++
        scMulAdd (scReduce (sum64 H (Public.Key (Secret.Public sk) ++
          compress (scalarMultPoint sk.scalar (8 * p0)) ++
          compress (scalarMultBase (scReduce (sum64 H
            (sk.pfx ++ compress (scalarMultPoint sk.scalar (8 * p0)))))) ++
          compress (scalarMultPoint (scReduce (sum64 H
            (sk.pfx ++ compress (scalarMultPoint sk.scalar (8 * p0))))) (8 * p0)) ++ x)))
          sk.scalar (scReduce (sum64 H
            (sk.pfx ++ compress (scalarMultPoint sk.scalar (8 * p0))))))).length = 96 := by
    simp [compress_length, scReduce_length, scMulAdd_length]
  rw [if_neg (by rw [hlen96]; omega)]
  rw [take32_append _ _ (compress_length _)]
  rw [decompress_compress]
  rw [elimSome]
  rw [if_neg (by rw [hlen96]; omega)]
  rw [drop32_append _ _ (compress_length _)]
  rw [take32_append _ _ (scReduce_length _)]
  rw [scMinimal_scReduce, if_pos rfl]
  rw [drop64_append _ _ _ (compress_length _) (scReduce_length _)]
  rw [takeD_self _ _ _ (scMulAdd_length _ _ _)]
  rw [scMinimal_scMulAdd, if_pos rfl]
  rw [hBv]
  rw [elimSome]
  rw [pointEqual_false_of_ne _ _ hAne, if_neg Bool.false_ne_true]
  rw [pointEqual_false_of_ne _ _ hcV, if_neg Bool.false_ne_true]
  rw [pointEqual_false_of_ne _ _ hcBv, if_neg Bool.false_ne_true]
  rw [hpkpt, vrf_R_eq, vrf_Rv_eq]
  rw [if_pos rfl]

set_option maxRecDepth 100000 in
theorem vrf_eval_verify_roundtrip_witness :
    zero32.length = 32 ∧
    SecretFromSeed hashOne zero32 = some skOne ∧
    HashToPointVartime hashOne (Public.Key (Secret.Public skOne) ++ []) = some 8 ∧
    pointClearCofactor 8 ≠ pointIdentity ∧
    pointClearCofactor (scalarMultPoint skOne.scalar 8) ≠ pointIdentity ∧
    VrfEval hashOne skOne [] = some (vrfResW.1, vrfResW.2) ∧
    VrfVerify hashOne (Secret.Public skOne) [] vrfResW.2 = some (vrfResW.1, true) :=
  ⟨by decide, by decide, by decide, by decide, by decide, by decide,
    vrf_eval_verify_roundtrip hashOne
      (by intro m b hb; simp [hashOne] at hb; omega) zero32 []
      (by decide) skOne (by decide) 8 (by decide) (by decide) (by decide)
      vrfResW.1 vrfResW.2 (by decide)⟩

/-- C3: public-mode secret derivation commutes with public derivation — for
every parent Secret and index, the compressed public key of
`Secret.Derive index none` equals the compressed key of
`Public.Derive index` on the parent's Public, byte for byte. -/
theorem derive_public_commute (H S : List Nat → List Nat) (sk : Secret) (index : List Nat) :
    Public.Key (Secret.Public (Secret.Derive H S sk index none)) =
      Public.Key (Public.Derive S (Secret.Public sk) index) := by
  show compress (scalarMultBase (scalarMultScalar
      (clamp (derivationBlind S (Public.Key (Secret.Public sk)) [] index none)) sk.scalar)) =
    compress (scalarMultPoint
      (clamp (derivationBlind S (Public.Key (Secret.Public sk)) [] index none))
      (scalarMultBase sk.scalar))
  rw [scalarMultScalar_base]

/-- C4: Public.Verify returns false on every malformed signature: wrong
length, any of the top three bits of byte 63 set, s component at least ℓ, or
first 32 bytes failing decompression. -/
theorem verify_rejects_malformed (H : List Nat → List Nat) (pk : Public) (msg sig : List Nat)
    (h : sig.length ≠ 64 ∨ sig.getD 63 0 &&& 224 ≠ 0 ∨ ell ≤ toNatLE (sig.drop 32) ∨
      decompress (sig.take 32) = none) :
    Public.Verify H pk msg sig = false := by
  unfold Public.Verify
  rcases h with h | h | h | h
  · rw [if_pos (Or.inl h)]
  · rw [if_pos (Or.inr h)]
  · by_cases h1 : sig.length ≠ 64 ∨ sig.getD 63 0 &&& 224 ≠ 0
    · rw [if_pos h1]
    · rw [if_neg h1]
      rcases hdec : decompress (sig.take 32) with _ | R
      · rfl
      · rw [elimSome]
        have hsmin : scMinimal (sig.drop 32) = false := by
          unfold scMinimal
          rw [decide_eq_false_iff_not]
          omega
        show (if scMinimal (sig.drop 32) = true then
            pointEqual (scalarMultBase (sig.drop 32))
              (pointAdd R (scalarMultPoint
                (scReduce (sum64 H (sig.take 32 ++ Public.Key pk ++ msg))) pk.point))
          else false) = false
        rw [hsmin, if_neg Bool.false_ne_true]
  · by_cases h1 : sig.length ≠ 64 ∨ sig.getD 63 0 &&& 224 ≠ 0
    · rw [if_pos h1]
    · rw [if_neg h1, h]
      rfl

set_option maxRecDepth 40000 in
theorem verify_rejects_malformed_witness :
    ((List.replicate 63 0 ++ [255]).getD 63 0 &&& 224 ≠ 0) ∧
    Public.Verify hashZero pubZero [] (List.replicate 63 0 ++ [255]) = false :=
  ⟨by decide,
    verify_rejects_malformed hashZero pubZero [] _ (Or.inr (Or.inl (by decide)))⟩

set_option maxRecDepth 100000 in
/-- C5 (code evaluated at the failing inputs): VrfVerify performs no
proof-length check.  An empty proof makes the Go code panic on the slice
expression `proof[0:32]` (modelled by `none`), instead of returning zeros and
false; and a 97-byte proof whose first 96 bytes form a valid proof is
accepted with (y, true), instead of being rejected. -/
theorem vrf_verify_length_unchecked :
    VrfVerify hashZero pubZero [] [] = none ∧
    VrfVerify hashOne (Secret.Public skOne) [] (vrfResW.2 ++ [0]) = some (vrfResW.1, true) := by
  constructor
  · decide
  · decide

/-- C6 counterexample: the Secret derived from `skZero` under the all-zero
hash has an unclamped scalar — bit 254 (bit 6 of byte 31) is clear, because
the child scalar is reduced mod ℓ < 2^253. -/
theorem derive_clamp_counterexample :
    ¬ ClampedBytes (Secret.Derive hashZero hashZero skZero [] none).scalar := by decide

theorem derive_scalar_reduced (bc aB : List Nat) :
    toNatLE (scalarMultScalar bc aB) < ell ∧ ¬ ClampedBytes (scalarMultScalar bc aB) := by
  constructor
  · unfold scalarMultScalar
    rw [toNatLE_scMulAdd]
    exact Nat.mod_lt _ (by decide)
  · intro hcl
    have hlt : (scalarMultScalar bc aB).getD 31 0 < 32 :=
      byte31_lt _ (Nat.mod_lt _ (by decide))
    have h0 := and64_of_lt _ hlt
    have h64 := hcl.2.1
    omega

/-- C6 (amended): every Secret produced by SecretFromSeed has a clamped
scalar; but every Secret produced by Secret.Derive has its scalar reduced
mod ℓ, so bit 254 is always clear and the derived scalar is never clamped. -/
theorem clamp_invariants_amended :
    (∀ (H : List Nat → List Nat) (seed : List Nat) (sk : Secret),
      SecretFromSeed H seed = some sk → ClampedBytes sk.scalar) ∧
    (∀ (H S : List Nat → List Nat) (sk : Secret) (index : List Nat) (skey : Option (List Nat)),
      toNatLE (Secret.Derive H S sk index skey).scalar < ell ∧
      ¬ ClampedBytes (Secret.Derive H S sk index skey).scalar) := by
  constructor
  · intro H seed sk hsk
    unfold SecretFromSeed at hsk
    by_cases hlen : seed.length = 32 ∨ seed.length = 64
    · rw [if_pos hlen, Option.some.injEq] at hsk
      rw [← hsk]
      exact clamped_clamp _ (by rw [List.length_take, sum64_length]; omega)
    · rw [if_neg hlen] at hsk
      exact absurd hsk (by simp)
  · intro H S sk index skey
    cases skey with
    | none => exact derive_scalar_reduced _ _
    | some k => exact derive_scalar_reduced _ _

theorem clamp_invariants_amended_witness :
    ClampedBytes skZero.scalar ∧
    toNatLE (Secret.Derive hashZero hashZero skZero [] none).scalar < ell :=
  ⟨clamp_invariants_amended.1 hashZero zero32 skZero (by decide),
    (clamp_invariants_amended.2 hashZero hashZero skZero [] none).1⟩

/-- C7: for every parent Secret and every (index, skey) pair, Secret.Derive
produces a child whose prefix is the first 32 bytes of SHA-512 of the parent
prefix concatenated with itself, and whose scalar equals the clamped blind
times the parent scalar, mod ℓ. -/
theorem derive_child_construction (H S : List Nat → List Nat) (sk : Secret) (index : List Nat)
    (skey : Option (List Nat)) :
    (Secret.Derive H S sk index skey).pfx = (sum64 H (sk.pfx ++ sk.pfx)).take 32 ∧
    toNatLE (Secret.Derive H S sk index skey).scalar =
      (toNatLE (clamp (match skey with
        | none => derivationBlind S (Public.Key (Secret.Public sk)) [] index none
        | some k => derivationBlind S [] sk.scalar index (some k))) *
        toNatLE sk.scalar) % ell := by
  cases skey with
  | none =>
    refine ⟨rfl, ?_⟩
    rw [show (Secret.Derive H S sk index none).scalar =
      scMulAdd (clamp (derivationBlind S (Public.Key (Secret.Public sk)) [] index none))
        sk.scalar zero32 from rfl]
    rw [toNatLE_scMulAdd, toNatLE_zero32, Nat.add_zero]
  | some k =>
    refine ⟨rfl, ?_⟩
    rw [show (Secret.Derive H S sk index (some k)).scalar =
      scMulAdd (clamp (derivationBlind S [] sk.scalar index (some k)))
        sk.scalar zero32 from rfl]
    rw [toNatLE_scMulAdd, toNatLE_zero32, Nat.add_zero]

/-- C8: encoding round trips — re-decoding a compressed public key and
re-encoding gives the same 32 bytes, and re-decoding the 64-byte secret
encoding scalar ‖ prefix and re-encoding gives the same 64 bytes. -/
theorem encoding_roundtrip :
    (∀ P : Public, (PublicFromKey (Public.Key P)).map Public.Key = some (Public.Key P)) ∧
    (∀ sk : Secret, sk.scalar.length = 32 → sk.pfx.length = 32 →
      (SecretFromKey (Secret.Key sk)).map Secret.Key = some (Secret.Key sk)) := by
  constructor
  · intro P
    show (PublicFromKey (compress P.point)).map Public.Key = some (compress P.point)
    unfold PublicFromKey
    rw [if_pos (compress_length _), decompress_compress]
    rfl
  · intro sk h1 h2
    unfold SecretFromKey
    rw [if_pos (by rw [show (Secret.Key sk).length = (sk.scalar ++ sk.pfx).length from rfl,
      List.length_append, h1, h2])]
    show some (Secret.Key ⟨(Secret.Key sk).take 32, (Secret.Key sk).drop 32⟩) =
      some (Secret.Key sk)
    rw [show Secret.Key sk = sk.scalar ++ sk.pfx from rfl]
    rw [take32_append _ _ h1, drop32_append _ _ h1]
    rfl

set_option maxRecDepth 40000 in
theorem encoding_roundtrip_witness :
    (PublicFromKey (Public.Key pubZero)).map Public.Key = some (Public.Key pubZero) ∧
    skZero.scalar.length = 32 ∧
    (SecretFromKey (Secret.Key skZero)).map Secret.Key = some (Secret.Key skZero) :=
  ⟨encoding_roundtrip.1 pubZero, by decide,
    encoding_roundtrip.2 skZero (by decide) (by decide)⟩

/-- C9: the derivation blind is the two-pass SHA3-512 construction with the
exact 32-byte ASCII constants — public mode reduces
SHA3-512(SHA3-512(constant ‖ pubkey) ‖ index) mod ℓ, secret mode keys the
inner hash with constant ‖ scalar ‖ skey. -/
theorem derivation_blind_constants :
    zedPublicConst = [122, 101, 100, 50, 53, 53, 49, 57, 95, 100, 101, 114, 105, 118, 97,
      116, 105, 111, 110, 95, 105, 110, 100, 101, 120, 95, 112, 117, 98, 108, 105, 99] ∧
    zedPublicConst.length = 32 ∧
    zedSecretConst = [122, 101, 100, 50, 53, 53, 49, 57, 95, 100, 101, 114, 105, 118, 97,
      116, 105, 111, 110, 95, 105, 110, 100, 101, 120, 95, 115, 101, 99, 114, 101, 116] ∧
    zedSecretConst.length = 32 ∧
    (∀ (S : List Nat → List Nat) (pubkey scalar index : List Nat),
      derivationBlind S pubkey scalar index none = KDFpublic S pubkey index) ∧
    (∀ (S : List Nat → List Nat) (pubkey scalar index skey : List Nat),
      derivationBlind S pubkey scalar index (some skey) = KDFsecret S scalar index skey) :=
  ⟨by decide, by decide, by decide, by decide,
    fun _ _ _ _ => rfl, fun _ _ _ _ _ => rfl⟩

/-- C10: SecretFromKey validates nothing beyond the 64-byte length — for
every 64-byte input the scalar is exactly the first 32 bytes and the prefix
exactly the last 32, with no clamping and no range check. -/
theorem secret_from_key_raw (k : List Nat) (h : k.length = 64) :
    SecretFromKey k = some ⟨k.take 32, k.drop 32⟩ := by
  unfold SecretFromKey
  rw [if_pos h]

set_option maxRecDepth 40000 in
theorem secret_from_key_raw_witness :
    (List.replicate 64 255).length = 64 ∧ ell ≤ toNatLE ((List.replicate 64 255).take 32) ∧
    SecretFromKey (List.replicate 64 255) =
      some ⟨(List.replicate 64 255).take 32, (List.replicate 64 255).drop 32⟩ :=
  ⟨by decide, by decide, secret_from_key_raw _ (by decide)⟩
